import Mathlib

/-!
Verification of the migration planner and executor of `sqlx_migrator`
(`src/migrator.rs`).

The planner (`generate_migration_plan`) and the surrounding executor
(`apply_all` / `revert_all`) are embedded shallowly:

* A migration's identity is its `(app, name)` pair (`MigId`).  The crate's
  `migration` module (trait `Migration` with its `PartialEq`/`Hash`
  implementations) is not part of the sources under `src/`; following the
  specification, equality and hashing of migrations and of tracking-table
  rows are on the `(app, name)` pair, so the dependency fields `parents`,
  `run_before` and `replaces` are embedded as lists of identities.
* The registry (`self.migrations()`, a `HashSet` in Rust) is embedded as a
  `List Migration`: its order models the (fixed, but arbitrary) iteration
  order of the hash set.
* The iterative plan-construction `while` loop of `generate_migration_plan`
  always terminates because each iteration either errors out or strictly
  grows the plan, which is bounded by the registry size; it is embedded with
  an explicit fuel of `registry.length + 1`, which is never exhausted
  (exhaustion would require the plan to outgrow the registry).  The
  fuel-exhaustion branch returns the same error as the stalling branch.
* Database effects are embedded as explicit state (`DbState`): the tracking
  table is a list of rows and the advisory lock a boolean.  User-supplied
  operation bodies are black boxes; whether applying or reverting a given
  migration fails is abstracted by a function `MigId → Bool`.
-/

namespace SqlxMigrator

/-- Identity of a migration: the `(app, name)` pair.
Modelled from the spec: the `migration` module is not among the provided
sources; per the specification, "`(app, name)` [is] the primary key —
equality, hashing, and the tracking table's unique constraint are all on
this pair". -/
structure MigId where
  app : String
  name : String
deriving DecidableEq

/-- A migration as seen by the planner: its identity plus the three
dependency fields of the `Migration` trait.  `parents`, `runBefore` and
`replaces` hold migration identities, since the planner compares
migrations only by identity.  The ordered operation list and `is_atomic`
flag are not needed by the planner and are abstracted in the executor
model. -/
structure Migration where
  app : String
  name : String
  parents : List MigId
  runBefore : List MigId
  replaces : List MigId
deriving DecidableEq

/-- The identity of a migration. -/
def Migration.mid (m : Migration) : MigId := ⟨m.app, m.name⟩

/-- The error cases of `Error` (crate `error` module) reachable from
`generate_migration_plan`. -/
inductive Error where
  | appNameRequired
  | failedToCreateMigrationPlan
  | bothMigrationTypeApplied
  | migrationNameNotExists (app : String) (migration : String)
  | appNameNotExists (app : String)
deriving DecidableEq

/-- Plan type (`PlanType` in `src/migrator.rs`). -/
inductive PlanType where
  | all
  | apply
  | revert
deriving DecidableEq

/-- Plan request (`Plan` in `src/migrator.rs`) passed to
`generate_migration_plan`. -/
structure Plan where
  planType : PlanType
  app : Option String
  migration : Option String

/-- One row (`AppliedMigrationSqlRow`) of the `_sqlx_migrator_migrations`
tracking table.  The `applied_time` column is a timestamp never
inspected by the planner and is omitted.  Comparison with a migration is
on `(app, name)` (modelled from the spec, see `MigId`). -/
structure AppliedMigrationSqlRow where
  rowId : Nat
  app : String
  name : String
deriving DecidableEq

/-- The identities of the migrations in a list. -/
def ids (l : List Migration) : List MigId := l.map Migration.mid

/-- The function `list_applied_migrations`: keep those registry migrations matched by
some tracking-table row (comparison on `(app, name)`).  Rows matching no
registered migration are dropped. -/
def listAppliedMigrations (registry : List Migration)
    (rows : List AppliedMigrationSqlRow) : List Migration :=
  registry.filter (fun m => decide (∃ row ∈ rows, row.app = m.app ∧ row.name = m.name))

/-- The reverse `run_before` index (`run_before_migration_hashmap`):
the registry migrations that list identity `t` in their `run_before`,
i.e. the migrations that must appear in the plan before `t` may. -/
def precedes (registry : List Migration) (t : MigId) : List Migration :=
  registry.filter (fun m => decide (t ∈ m.runBefore))

/-- The emission condition of the plan-construction loop: all parents of
`m` are already in the plan, and so is every migration that must run
before `m`. -/
def ready (registry : List Migration) (plan : List Migration) (m : Migration) : Prop :=
  (∀ p ∈ m.parents, p ∈ ids plan) ∧
    ∀ q ∈ precedes registry m.mid, q.mid ∈ ids plan

instance (registry plan : List Migration) (m : Migration) :
    Decidable (ready registry plan m) := by
  unfold ready; exact inferInstance

/-- One step of the inner `for` loop of plan construction: append `m` to
the plan if it is ready and not yet present. -/
def planStep (registry : List Migration) (acc : List Migration) (m : Migration) :
    List Migration :=
  if ready registry acc m ∧ m.mid ∉ ids acc then acc ++ [m] else acc

/-- One full pass of the inner `for` loop over the registry. -/
def planPass (registry : List Migration) (plan : List Migration) : List Migration :=
  registry.foldl (planStep registry) plan

/-- The outer `while` loop of plan construction.  The loop runs until the
plan holds as many migrations as the registry; a pass that adds nothing
signals `FailedToCreateMigrationPlan`.  The fuel-exhaustion branch
returns the same error; with the fuel used by `generateMigrationPlanCore`
it is unreachable. -/
def planLoop (registry : List Migration) : Nat → List Migration →
    Except Error (List Migration)
  | 0, _ => .error .failedToCreateMigrationPlan
  | fuel + 1, plan =>
    if plan.length = registry.length then .ok plan
    else if (planPass registry plan).length = plan.length then
      .error .failedToCreateMigrationPlan
    else planLoop registry fuel (planPass registry plan)

/-- The inner `for replaced_migration in migration.replaces()` loop:
drop from the plan every migration replaced by `m`. -/
def removeReplaced (replaces : List MigId) (plan : List Migration) : List Migration :=
  replaces.foldl (fun pl r => pl.filter (fun p => decide (p.mid ≠ r))) plan

/-- Replacement resolution (`// Remove migration from migration plan`):
iterate over a snapshot of the freshly built plan; for each migration
with a non-empty `replaces` list, if one of the replaced migrations is
applied then drop the replacer (erroring if the replacer is applied
too), else drop all the replaced migrations. -/
def resolveReplaces (applied : List Migration) :
    List Migration → List Migration → Except Error (List Migration)
  | [], plan => .ok plan
  | m :: rest, plan =>
    if m.replaces = [] then resolveReplaces applied rest plan
    else if ∃ r ∈ m.replaces, r ∈ ids applied then
      if m.mid ∈ ids applied then .error .bothMigrationTypeApplied
      else resolveReplaces applied rest
        (plan.filter (fun p => decide (p.mid ≠ m.mid)))
    else resolveReplaces applied rest (removeReplaced m.replaces plan)

/-- The `match plan.plan_type` filter: `Apply` keeps unapplied
migrations, `Revert` keeps applied ones and reverses, `All` keeps
everything. -/
def modeFilter (pt : PlanType) (applied : List Migration) (plan : List Migration) :
    List Migration :=
  match pt with
  | .apply => plan.filter (fun m => decide (m.mid ∉ ids applied))
  | .revert => (plan.filter (fun m => decide (m.mid ∈ ids applied))).reverse
  | .all => plan

/-- Rust's `Iterator::rposition`: index of the last element satisfying `p`. -/
def rposition {α : Type} (p : α → Bool) : List α → Option Nat
  | [] => none
  | x :: xs =>
    match rposition p xs with
    | some i => some (i + 1)
    | none => if p x then some 0 else none

/-- Target truncation (`if let Some(app) = plan.app`): cut the plan after
the rightmost entry matching the requested app (and migration name, when
given); signal `MigrationNameNotExists` or `AppNameNotExists` when there
is no match. -/
def truncateTarget (appOpt : Option String) (nameOpt : Option String)
    (plan : List Migration) : Except Error (List Migration) :=
  match appOpt with
  | none => .ok plan
  | some app =>
    match nameOpt with
    | some name =>
      match rposition (fun m => decide (m.app = app ∧ m.name = name)) plan with
      | some pos => .ok (plan.take (pos + 1))
      | none =>
        if ∃ m ∈ plan, m.app = app then
          .error (.migrationNameNotExists app name)
        else .error (.appNameNotExists app)
    | none =>
      match rposition (fun m => decide (m.app = app)) plan with
      | some pos => .ok (plan.take (pos + 1))
      | none => .error (.appNameNotExists app)

/-- The body of `generate_migration_plan`, starting after the applied set has been
read from the database: topological emission loop, replacement
resolution, plan-type filter, target truncation. -/
def generateMigrationPlanCore (registry applied : List Migration) (p : Plan) :
    Except Error (List Migration) :=
  match planLoop registry (registry.length + 1) [] with
  | .error e => .error e
  | .ok topo =>
    match resolveReplaces applied topo topo with
    | .error e => .error e
    | .ok resolved => truncateTarget p.app p.migration (modeFilter p.planType applied resolved)

/-- The function `generate_migration_plan` including the initial
`list_applied_migrations` read of the tracking table. -/
def generateMigrationPlan (registry : List Migration)
    (rows : List AppliedMigrationSqlRow) (p : Plan) : Except Error (List Migration) :=
  generateMigrationPlanCore registry (listAppliedMigrations registry rows) p

/-- Database state visible to the executor: the advisory lock and the
tracking table.  User table contents are outside the model; operation
bodies are black boxes. -/
structure DbState where
  locked : Bool
  rows : List AppliedMigrationSqlRow
deriving DecidableEq

/-- Errors surfaced by `apply_all` / `revert_all`. -/
inductive ExecError where
  | planError (e : Error)
  | migrationFailed (m : MigId)
deriving DecidableEq

/-- Result of an executor call: the database state it leaves behind and
the error it propagates, if any. -/
structure ExecResult where
  state : DbState
  err : Option ExecError
deriving DecidableEq

/-- The tracking row inserted for a migration (`INSERT INTO
_sqlx_migrator_migrations(app, name) VALUES ($1, $2)`; the row id is
dialect-assigned and irrelevant to the model). -/
def migrationRow (m : Migration) : AppliedMigrationSqlRow := ⟨0, m.app, m.name⟩

/-- Row deletion for a reverted migration (`DELETE ... WHERE app = $1 AND
name = $2`). -/
def deleteRow (m : Migration) (rows : List AppliedMigrationSqlRow) :
    List AppliedMigrationSqlRow :=
  rows.filter (fun r => decide (¬(r.app = m.app ∧ r.name = m.name)))

/-- The method `apply_migration`: run the migration's operations and insert its
tracking row.  `fails m` abstracts "some operation or the tracking-table
write of `m` fails"; on failure nothing is recorded (the transaction is
rolled back, or the row write is never reached). -/
def applyMigration (fails : MigId → Bool) (m : Migration) (st : DbState) :
    Option DbState :=
  if fails m.mid then none
  else some { st with rows := st.rows ++ [migrationRow m] }

/-- The method `revert_migration`: run the operations in reverse and delete the
tracking row; `fails` abstracts failure as in `applyMigration`. -/
def revertMigration (fails : MigId → Bool) (m : Migration) (st : DbState) :
    Option DbState :=
  if fails m.mid then none
  else some { st with rows := deleteRow m st.rows }

/-- The `for migration in ... { self.apply_migration(migration).await? }`
loop of `apply_all`: stop at the first failing migration. -/
def runApplyLoop (fails : MigId → Bool) : List Migration → DbState → ExecResult
  | [], st => ⟨st, none⟩
  | m :: rest, st =>
    match applyMigration fails m st with
    | none => ⟨st, some (.migrationFailed m.mid)⟩
    | some st' => runApplyLoop fails rest st'

/-- The revert loop of `revert_all`. -/
def runRevertLoop (fails : MigId → Bool) : List Migration → DbState → ExecResult
  | [], st => ⟨st, none⟩
  | m :: rest, st =>
    match revertMigration fails m st with
    | none => ⟨st, some (.migrationFailed m.mid)⟩
    | some st' => runRevertLoop fails rest st'

/-- The method `apply_all`: take the lock, generate the Apply plan, apply each
migration in order, and release the lock.  The `?` operator in the Rust
source returns on the first error, so the lock is released only on the
all-success path. -/
def applyAll (fails : MigId → Bool) (registry : List Migration) (st : DbState) :
    ExecResult :=
  match generateMigrationPlan registry st.rows ⟨.apply, none, none⟩ with
  | .error e => ⟨{ st with locked := true }, some (.planError e)⟩
  | .ok plan =>
    match runApplyLoop fails plan { st with locked := true } with
    | ⟨st', none⟩ => ⟨{ st' with locked := false }, none⟩
    | ⟨st', some e⟩ => ⟨st', some e⟩

/-- The method `revert_all`: as `applyAll` with the Revert plan and the revert loop. -/
def revertAll (fails : MigId → Bool) (registry : List Migration) (st : DbState) :
    ExecResult :=
  match generateMigrationPlan registry st.rows ⟨.revert, none, none⟩ with
  | .error e => ⟨{ st with locked := true }, some (.planError e)⟩
  | .ok plan =>
    match runRevertLoop fails plan { st with locked := true } with
    | ⟨st', none⟩ => ⟨{ st' with locked := false }, none⟩
    | ⟨st', some e⟩ => ⟨st', some e⟩

/-- The precedence constraint between registered migrations: `a` must
appear in the plan before `b` (either `a` is a parent of `b`, or `b` is
in `a.run_before`). -/
def migPrec (a b : Migration) : Prop := a.mid ∈ b.parents ∨ b.mid ∈ a.runBefore

/-- The precedence edge restricted to the registry. -/
def edgeIn (registry : List Migration) (a b : Migration) : Prop :=
  a ∈ registry ∧ b ∈ registry ∧ migPrec a b

/-- Acyclicity of the precedence graph (parents edges plus inverse
`run_before` edges) over the registry: no migration reaches itself
through a non-empty path. -/
def Acyclic (registry : List Migration) : Prop :=
  ∀ m, ¬ Relation.TransGen (edgeIn registry) m m

/-- Invariant I4: registered identities are pairwise distinct. -/
def NodupIds (l : List Migration) : Prop := (ids l).Nodup

instance (l : List Migration) : Decidable (NodupIds l) := by
  unfold NodupIds
  exact inferInstance

/-- Invariant I5 for parents: every parent of a registered migration is
itself registered. -/
def ParentsClosed (registry : List Migration) : Prop :=
  ∀ m ∈ registry, ∀ p ∈ m.parents, p ∈ ids registry

instance (registry : List Migration) : Decidable (ParentsClosed registry) := by
  unfold ParentsClosed
  exact inferInstance

/-- The ordering property claimed of generated plans: each entry is
`ready` with respect to the entries before it, i.e. it comes after all
of its parents and after every registered migration that lists it in
`run_before`. -/
def Ordered (registry : List Migration) (plan : List Migration) : Prop :=
  ∀ pre x post, plan = pre ++ x :: post → ready registry pre x

/-! ### Basic lemmas about identities and the emission pass -/

theorem mem_ids {i : MigId} {l : List Migration} :
    i ∈ ids l ↔ ∃ x ∈ l, x.mid = i := by
  simp [ids]

theorem ids_append (l₁ l₂ : List Migration) :
    ids (l₁ ++ l₂) = ids l₁ ++ ids l₂ := by
  simp [ids]

theorem planStep_extends (registry acc : List Migration) (m : Migration) :
    ∃ ext, planStep registry acc m = acc ++ ext := by
  unfold planStep
  split
  · exact ⟨[m], rfl⟩
  · exact ⟨[], (List.append_nil acc).symm⟩

theorem foldl_planStep_extends (registry : List Migration) :
    ∀ (l acc : List Migration), ∃ ext, List.foldl (planStep registry) acc l = acc ++ ext := by
  intro l
  induction l with
  | nil => exact fun acc => ⟨[], (List.append_nil acc).symm⟩
  | cons h t ih =>
    intro acc
    obtain ⟨e₁, he₁⟩ := planStep_extends registry acc h
    obtain ⟨e₂, he₂⟩ := ih (planStep registry acc h)
    refine ⟨e₁ ++ e₂, ?_⟩
    rw [List.foldl_cons]
    rw [he₁] at he₂
    rw [he₁, he₂, List.append_assoc]

theorem mem_ids_foldl_planStep (registry : List Migration) {l acc : List Migration}
    {i : MigId} (h : i ∈ ids acc) : i ∈ ids (List.foldl (planStep registry) acc l) := by
  obtain ⟨ext, hext⟩ := foldl_planStep_extends registry l acc
  rw [hext, ids_append]
  exact List.mem_append_left _ h

theorem mem_foldl_planStep (registry : List Migration) {l acc : List Migration}
    {x : Migration} (h : x ∈ acc) : x ∈ List.foldl (planStep registry) acc l := by
  obtain ⟨ext, hext⟩ := foldl_planStep_extends registry l acc
  rw [hext]
  exact List.mem_append_left _ h

theorem mem_planStep_cases (registry acc : List Migration) (m : Migration)
    {x : Migration} (h : x ∈ planStep registry acc m) : x ∈ acc ∨ x = m := by
  unfold planStep at h
  split at h
  · rcases List.mem_append.mp h with h' | h'
    · exact Or.inl h'
    · exact Or.inr (List.mem_singleton.mp h')
  · exact Or.inl h

theorem mem_foldl_planStep_cases (registry : List Migration) :
    ∀ {l acc : List Migration} {x : Migration},
      x ∈ List.foldl (planStep registry) acc l → x ∈ acc ∨ x ∈ l := by
  intro l
  induction l with
  | nil => intro acc x h; exact Or.inl h
  | cons hd t ih =>
    intro acc x h
    rcases ih h with h' | h'
    · rcases mem_planStep_cases registry acc hd h' with h'' | h''
      · exact Or.inl h''
      · exact Or.inr (h'' ▸ List.mem_cons_self hd t)
    · exact Or.inr (List.mem_cons_of_mem hd h')

theorem mem_planPass_cases {registry plan : List Migration} {x : Migration}
    (h : x ∈ planPass registry plan) : x ∈ plan ∨ x ∈ registry :=
  mem_foldl_planStep_cases registry h

theorem nodupIds_planStep {registry acc : List Migration} (m : Migration)
    (h : NodupIds acc) : NodupIds (planStep registry acc m) := by
  unfold planStep
  by_cases hcond : ready registry acc m ∧ m.mid ∉ ids acc
  · rw [if_pos hcond]
    unfold NodupIds at h ⊢
    rw [ids_append]
    simp only [ids, List.map_cons, List.map_nil]
    rw [List.nodup_append]
    refine ⟨h, List.nodup_singleton _, ?_⟩
    intro a ha hb
    simp only [List.mem_singleton] at hb
    subst hb
    exact hcond.2 ha
  · rw [if_neg hcond]
    exact h

theorem nodupIds_foldl_planStep (registry : List Migration) :
    ∀ {l acc : List Migration}, NodupIds acc →
      NodupIds (List.foldl (planStep registry) acc l) := by
  intro l
  induction l with
  | nil => exact fun h => h
  | cons hd t ih => intro acc h; exact ih (nodupIds_planStep hd h)

theorem nodupIds_planPass {registry plan : List Migration} (h : NodupIds plan) :
    NodupIds (planPass registry plan) :=
  nodupIds_foldl_planStep registry h

theorem ready_mono {registry l₁ l₂ : List Migration} {m : Migration}
    (hsub : ∀ i ∈ ids l₁, i ∈ ids l₂) (h : ready registry l₁ m) :
    ready registry l₂ m :=
  ⟨fun p hp => hsub p (h.1 p hp), fun q hq => hsub q.mid (h.2 q hq)⟩

theorem mem_ids_foldl_planStep_of_ready (registry : List Migration) :
    ∀ {l acc : List Migration} {m : Migration}, m ∈ l → ready registry acc m →
      m.mid ∈ ids (List.foldl (planStep registry) acc l) := by
  intro l
  induction l with
  | nil => intro acc m h; exact absurd h (List.not_mem_nil m)
  | cons hd t ih =>
    intro acc m hm hready
    rcases List.mem_cons.mp hm with rfl | hm'
    · -- after the step on `m` itself, `m.mid` is in the accumulator
      have hmem : m.mid ∈ ids (planStep registry acc m) := by
        unfold planStep
        by_cases hcond : ready registry acc m ∧ m.mid ∉ ids acc
        · rw [if_pos hcond, ids_append]
          simp [ids]
        · rw [if_neg hcond]
          rcases Classical.em (m.mid ∈ ids acc) with h' | h'
          · exact h'
          · exact absurd ⟨hready, h'⟩ hcond
      rw [List.foldl_cons]
      exact mem_ids_foldl_planStep registry hmem
    · obtain ⟨ext, hext⟩ := planStep_extends registry acc hd
      rw [List.foldl_cons]
      refine ih hm' (ready_mono ?_ hready)
      intro i hi
      rw [hext, ids_append]
      exact List.mem_append_left _ hi

theorem mem_ids_planPass_of_ready {registry plan : List Migration} {m : Migration}
    (hm : m ∈ registry) (hready : ready registry plan m) :
    m.mid ∈ ids (planPass registry plan) :=
  mem_ids_foldl_planStep_of_ready registry hm hready

/-! ### Order preservation, counting, and the acyclicity argument -/

theorem ordered_nil (registry : List Migration) : Ordered registry [] := by
  intro pre x post h
  exact absurd h.symm (List.append_ne_nil_of_right_ne_nil pre (List.cons_ne_nil x post))

theorem ordered_planStep {registry acc : List Migration} {m : Migration}
    (h : Ordered registry acc) : Ordered registry (planStep registry acc m) := by
  unfold planStep
  by_cases hcond : ready registry acc m ∧ m.mid ∉ ids acc
  · rw [if_pos hcond]
    intro pre x post heq
    rcases List.append_eq_append_iff.mp heq with ⟨a', ha₁, ha₂⟩ | ⟨c', hc₁, hc₂⟩
    · -- [m] = a' ++ x :: post forces a' = [], post = [], x = m, pre = acc
      cases a' with
      | nil =>
        simp only [List.nil_append, List.cons.injEq] at ha₂
        obtain ⟨rfl, rfl⟩ := ha₂
        simp only [List.append_nil] at ha₁
        exact ha₁ ▸ hcond.1
      | cons y ys =>
        exact absurd ha₂ (by simp)
    · cases c' with
      | nil =>
        simp only [List.append_nil] at hc₁
        simp only [List.nil_append, List.cons.injEq] at hc₂
        obtain ⟨rfl, _⟩ := hc₂
        exact hc₁ ▸ hcond.1
      | cons y ys =>
        simp only [List.cons_append, List.cons.injEq] at hc₂
        obtain ⟨rfl, _⟩ := hc₂
        exact h pre x ys hc₁
  · rw [if_neg hcond]
    exact h

theorem ordered_foldl_planStep (registry : List Migration) :
    ∀ {l acc : List Migration}, Ordered registry acc →
      Ordered registry (List.foldl (planStep registry) acc l) := by
  intro l
  induction l with
  | nil => exact fun h => h
  | cons hd t ih => intro acc h; exact ih (ordered_planStep h)

theorem ordered_planPass {registry plan : List Migration} (h : Ordered registry plan) :
    Ordered registry (planPass registry plan) :=
  ordered_foldl_planStep registry h

theorem length_le_of_nodup_sub {l₁ l₂ : List MigId} (h₁ : l₁.Nodup)
    (hsub : ∀ i ∈ l₁, i ∈ l₂) : l₁.length ≤ l₂.length := by
  classical
  calc l₁.length = l₁.toFinset.card := (List.toFinset_card_of_nodup h₁).symm
    _ ≤ l₂.toFinset.card := Finset.card_le_card
        (fun a ha => List.mem_toFinset.mpr (hsub a (List.mem_toFinset.mp ha)))
    _ ≤ l₂.length := List.toFinset_card_le l₂

theorem length_lt_of_nodup_ssub {l₁ l₂ : List MigId} (h₁ : l₁.Nodup)
    (hsub : ∀ i ∈ l₁, i ∈ l₂) {j : MigId} (hj₂ : j ∈ l₂) (hj₁ : j ∉ l₁) :
    l₁.length < l₂.length := by
  classical
  have hssub : l₁.toFinset ⊂ l₂.toFinset := by
    rw [Finset.ssubset_def]
    refine ⟨fun a ha => List.mem_toFinset.mpr (hsub a (List.mem_toFinset.mp ha)), ?_⟩
    intro hcontra
    exact hj₁ (List.mem_toFinset.mp (hcontra (List.mem_toFinset.mpr hj₂)))
  calc l₁.length = l₁.toFinset.card := (List.toFinset_card_of_nodup h₁).symm
    _ < l₂.toFinset.card := Finset.card_lt_card hssub
    _ ≤ l₂.length := List.toFinset_card_le l₂

theorem eq_of_mem_of_mid_eq {registry : List Migration} (hnd : NodupIds registry)
    {x y : Migration} (hx : x ∈ registry) (hy : y ∈ registry) (hmid : x.mid = y.mid) :
    x = y := by
  unfold NodupIds ids at hnd
  exact List.inj_on_of_nodup_map hnd hx hy hmid

theorem mem_precedes {registry : List Migration} {t : MigId} {q : Migration} :
    q ∈ precedes registry t ↔ q ∈ registry ∧ t ∈ q.runBefore := by
  unfold precedes
  rw [List.mem_filter]
  simp

/-- In an acyclic precedence graph, every non-empty set of registered
migrations contains one with no precedence predecessor inside the set. -/
theorem exists_source {registry : List Migration} (hacyc : Acyclic registry)
    (S : List Migration) (hS : S ≠ []) (hsub : ∀ x ∈ S, x ∈ registry) :
    ∃ m ∈ S, ∀ y ∈ S, ¬ migPrec y m := by
  classical
  by_contra hcon
  push_neg at hcon
  haveI : Finite {x : Migration // x ∈ registry} := (List.finite_toSet registry).to_subtype
  let r : {x : Migration // x ∈ registry} → {x : Migration // x ∈ registry} → Prop :=
    fun a b => Relation.TransGen (edgeIn registry) a.val b.val
  haveI : IsTrans _ r := ⟨fun _ _ _ hab hbc => hab.trans hbc⟩
  haveI : IsIrrefl _ r := ⟨fun a ha => hacyc a.val ha⟩
  have hwf : WellFounded r := Finite.wellFounded_of_trans_of_irrefl r
  obtain ⟨x0, hx0⟩ := List.exists_mem_of_ne_nil S hS
  obtain ⟨t, htS, hmin⟩ :=
    hwf.has_min {a : {x : Migration // x ∈ registry} | a.val ∈ S} ⟨⟨x0, hsub x0 hx0⟩, hx0⟩
  obtain ⟨y, hyS, hprec⟩ := hcon t.val htS
  exact hmin ⟨y, hsub y hyS⟩ hyS
    (Relation.TransGen.single ⟨hsub y hyS, t.prop, hprec⟩)

/-- While some registered migration is missing from an (invariant-respecting)
plan over an acyclic graph, a pass strictly grows the plan. -/
theorem planPass_progress {registry plan : List Migration}
    (hclosed : ParentsClosed registry) (hacyc : Acyclic registry)
    (hne : ∃ m ∈ registry, m.mid ∉ ids plan) :
    plan.length < (planPass registry plan).length := by
  classical
  obtain ⟨m₀, hm₀r, hm₀⟩ := hne
  set S := registry.filter (fun m => decide (m.mid ∉ ids plan)) with hSdef
  have hSne : S ≠ [] := by
    intro hnil
    have hmem : m₀ ∈ S := List.mem_filter.mpr ⟨hm₀r, by simpa using hm₀⟩
    rw [hnil] at hmem
    exact absurd hmem (List.not_mem_nil _)
  have hSsub : ∀ x ∈ S, x ∈ registry := fun x hx => (List.mem_filter.mp hx).1
  obtain ⟨m, hmS, hsrc⟩ := exists_source hacyc S hSne hSsub
  have hmreg : m ∈ registry := hSsub m hmS
  have hmnotin : m.mid ∉ ids plan := by
    have := (List.mem_filter.mp hmS).2
    simpa using this
  have hready : ready registry plan m := by
    constructor
    · intro p hp
      obtain ⟨mp, hmpreg, hmpid⟩ := mem_ids.mp (hclosed m hmreg p hp)
      by_contra hnot
      have hmpS : mp ∈ S := List.mem_filter.mpr ⟨hmpreg, by
        simp only [decide_eq_true_eq]
        rw [hmpid]
        exact hnot⟩
      exact hsrc mp hmpS (Or.inl (by rw [hmpid]; exact hp))
    · intro q hq
      obtain ⟨hqreg, hqrb⟩ := mem_precedes.mp hq
      by_contra hnot
      have hqS : q ∈ S := List.mem_filter.mpr ⟨hqreg, by simpa using hnot⟩
      exact hsrc q hqS (Or.inr hqrb)
  have hmem := mem_ids_planPass_of_ready hmreg hready
  obtain ⟨ext, hext⟩ := foldl_planStep_extends registry registry plan
  have hPP : planPass registry plan = plan ++ ext := hext
  rw [hPP, List.length_append]
  have hmext : m.mid ∈ ids ext := by
    have h2 : m.mid ∈ ids (plan ++ ext) := by rw [← hPP]; exact hmem
    rw [ids_append] at h2
    rcases List.mem_append.mp h2 with h' | h'
    · exact absurd h' hmnotin
    · exact h'
  have hextne : ext ≠ [] := by
    intro h0
    rw [h0] at hmext
    simp [ids] at hmext
  have hpos : 0 < ext.length := List.length_pos.mpr hextne
  omega

/-! ### The emission loop: invariants, success on acyclic graphs, failure on cycles -/

theorem planLoop_ok_props {registry : List Migration} :
    ∀ {fuel : Nat} {plan out : List Migration},
      planLoop registry fuel plan = .ok out →
      (∀ x ∈ plan, x ∈ registry) → NodupIds plan → Ordered registry plan →
      (∀ x ∈ out, x ∈ registry) ∧ NodupIds out ∧ Ordered registry out ∧
        out.length = registry.length := by
  intro fuel
  induction fuel with
  | zero =>
    intro plan out h
    exact absurd h (by simp [planLoop])
  | succ f ih =>
    intro plan out h hsub hnd hord
    rw [planLoop] at h
    by_cases hlen : plan.length = registry.length
    · rw [if_pos hlen] at h
      injection h with h'
      subst h'
      exact ⟨hsub, hnd, hord, hlen⟩
    · rw [if_neg hlen] at h
      by_cases hstall : (planPass registry plan).length = plan.length
      · rw [if_pos hstall] at h
        exact absurd h (by simp)
      · rw [if_neg hstall] at h
        refine ih h ?_ (nodupIds_planPass hnd) (ordered_planPass hord)
        intro x hx
        rcases mem_planPass_cases hx with h' | h'
        · exact hsub x h'
        · exact h'

theorem planLoop_ok_of_acyclic {registry : List Migration}
    (hndr : NodupIds registry) (hclosed : ParentsClosed registry)
    (hacyc : Acyclic registry) :
    ∀ {fuel : Nat} {plan : List Migration},
      (∀ x ∈ plan, x ∈ registry) → NodupIds plan →
      registry.length < plan.length + fuel →
      ∃ out, planLoop registry fuel plan = .ok out := by
  intro fuel
  induction fuel with
  | zero =>
    intro plan hsub hnd hlt
    exfalso
    have hle : (ids plan).length ≤ (ids registry).length := by
      refine length_le_of_nodup_sub hnd ?_
      intro i hi
      obtain ⟨x, hx, rfl⟩ := mem_ids.mp hi
      exact mem_ids.mpr ⟨x, hsub x hx, rfl⟩
    simp only [ids, List.length_map] at hle
    omega
  | succ f ih =>
    intro plan hsub hnd hlt
    by_cases hlen : plan.length = registry.length
    · exact ⟨plan, by rw [planLoop, if_pos hlen]⟩
    · have hle : plan.length ≤ registry.length := by
        have h' : (ids plan).length ≤ (ids registry).length := by
          refine length_le_of_nodup_sub hnd ?_
          intro i hi
          obtain ⟨x, hx, rfl⟩ := mem_ids.mp hi
          exact mem_ids.mpr ⟨x, hsub x hx, rfl⟩
        simpa only [ids, List.length_map] using h'
      have hne : ∃ m ∈ registry, m.mid ∉ ids plan := by
        by_contra hcon
        push_neg at hcon
        have h' : (ids registry).length ≤ (ids plan).length := by
          refine length_le_of_nodup_sub hndr ?_
          intro i hi
          obtain ⟨x, hx, rfl⟩ := mem_ids.mp hi
          exact hcon x hx
        simp only [ids, List.length_map] at h'
        omega
      have hprog := planPass_progress hclosed hacyc hne
      have hstall : ¬ (planPass registry plan).length = plan.length := by omega
      have hsub' : ∀ x ∈ planPass registry plan, x ∈ registry := by
        intro x hx
        rcases mem_planPass_cases hx with h' | h'
        · exact hsub x h'
        · exact h'
      obtain ⟨out, hout⟩ := ih hsub' (nodupIds_planPass hnd) (by omega)
      exact ⟨out, by rw [planLoop, if_neg hlen, if_neg hstall]; exact hout⟩

/-- On an acyclic, parent-closed, duplicate-free registry, the emission
loop succeeds and returns a plan that is a permutation of the registry
and respects all precedence constraints. -/
theorem planLoop_complete {registry : List Migration}
    (hndr : NodupIds registry) (hclosed : ParentsClosed registry)
    (hacyc : Acyclic registry) :
    ∃ out, planLoop registry (registry.length + 1) [] = .ok out ∧
      List.Perm out registry ∧ Ordered registry out := by
  obtain ⟨out, hout⟩ := @planLoop_ok_of_acyclic registry hndr hclosed hacyc
    (registry.length + 1) [] (fun x hx => absurd hx (List.not_mem_nil x))
    (by simp [NodupIds, ids]) (by simp)
  obtain ⟨hsub, hnd, hord, hlen⟩ := planLoop_ok_props hout
    (fun x hx => absurd hx (List.not_mem_nil x)) (by simp [NodupIds, ids]) (ordered_nil registry)
  refine ⟨out, hout, ?_, hord⟩
  have hndout : out.Nodup := List.Nodup.of_map _ hnd
  have hndreg : registry.Nodup := List.Nodup.of_map _ hndr
  rw [List.perm_ext_iff_of_nodup hndout hndreg]
  intro a
  constructor
  · exact fun h => hsub a h
  · intro ha
    by_contra hnot
    have hmidnot : a.mid ∉ ids out := by
      intro hmem
      obtain ⟨x, hxout, hxid⟩ := mem_ids.mp hmem
      have hxa : x = a := eq_of_mem_of_mid_eq hndr (hsub x hxout) ha hxid
      exact hnot (hxa ▸ hxout)
    have hlt : (ids out).length < (ids registry).length := by
      refine length_lt_of_nodup_ssub hnd ?_ (mem_ids.mpr ⟨a, ha, rfl⟩) hmidnot
      intro i hi
      obtain ⟨x, hx, rfl⟩ := mem_ids.mp hi
      exact mem_ids.mpr ⟨x, hsub x hx, rfl⟩
    simp only [ids, List.length_map] at hlt
    omega

theorem cyclic_mem_registry {registry : List Migration} {x : Migration}
    (h : Relation.TransGen (edgeIn registry) x x) : x ∈ registry := by
  cases h with
  | single h' => exact h'.1
  | tail _ h' => exact h'.2.1

theorem cyclic_has_cyclic_pred {registry : List Migration} {x : Migration}
    (h : Relation.TransGen (edgeIn registry) x x) :
    ∃ y, Relation.TransGen (edgeIn registry) y y ∧ edgeIn registry y x := by
  obtain ⟨y, hxy, hyx⟩ := Relation.TransGen.tail'_iff.mp h
  exact ⟨y, Relation.TransGen.head' hyx hxy, hyx⟩

/-- A migration lying on a precedence cycle is never emitted by a step:
its cyclic predecessor is absent from the plan, so it is not ready. -/
theorem planStep_cycle_free {registry acc : List Migration} {m : Migration}
    (hndr : NodupIds registry) (hm : m ∈ registry)
    (hacc : ∀ x, Relation.TransGen (edgeIn registry) x x → x.mid ∉ ids acc) :
    ∀ x, Relation.TransGen (edgeIn registry) x x →
      x.mid ∉ ids (planStep registry acc m) := by
  intro x hx
  unfold planStep
  by_cases hcond : ready registry acc m ∧ m.mid ∉ ids acc
  · rw [if_pos hcond, ids_append]
    intro hmem
    rcases List.mem_append.mp hmem with h' | h'
    · exact hacc x hx h'
    · simp only [ids, List.map_cons, List.map_nil, List.mem_singleton] at h'
      have hxreg : x ∈ registry := cyclic_mem_registry hx
      have hxm : x = m := eq_of_mem_of_mid_eq hndr hxreg hm h'
      subst hxm
      obtain ⟨y, hyy, hyx⟩ := cyclic_has_cyclic_pred hx
      rcases hyx.2.2 with hp | hrb
      · exact hacc y hyy (hcond.1.1 y.mid hp)
      · exact hacc y hyy (hcond.1.2 y (mem_precedes.mpr ⟨hyx.1, hrb⟩))
  · rw [if_neg hcond]
    exact hacc x hx

theorem foldl_planStep_cycle_free {registry : List Migration} (hndr : NodupIds registry) :
    ∀ {l acc : List Migration}, (∀ e ∈ l, e ∈ registry) →
      (∀ x, Relation.TransGen (edgeIn registry) x x → x.mid ∉ ids acc) →
      ∀ x, Relation.TransGen (edgeIn registry) x x →
        x.mid ∉ ids (List.foldl (planStep registry) acc l) := by
  intro l
  induction l with
  | nil =>
    intro acc _ hacc
    exact hacc
  | cons hd t ih =>
    intro acc hl hacc x hx
    rw [List.foldl_cons]
    refine ih (fun e he => hl e (List.mem_cons_of_mem hd he)) ?_ x hx
    exact planStep_cycle_free hndr (hl hd (List.mem_cons_self hd t)) hacc

theorem planPass_cycle_free {registry plan : List Migration} (hndr : NodupIds registry)
    (hplan : ∀ x, Relation.TransGen (edgeIn registry) x x → x.mid ∉ ids plan) :
    ∀ x, Relation.TransGen (edgeIn registry) x x →
      x.mid ∉ ids (planPass registry plan) :=
  foldl_planStep_cycle_free hndr (fun _ he => he) hplan

/-- On a registry with a precedence cycle, the emission loop always
fails with `FailedToCreateMigrationPlan`. -/
theorem planLoop_error_of_cycle {registry : List Migration} (hndr : NodupIds registry)
    {m₀ : Migration} (hm₀ : Relation.TransGen (edgeIn registry) m₀ m₀) :
    ∀ {fuel : Nat} {plan : List Migration},
      (∀ x ∈ plan, x ∈ registry) → NodupIds plan →
      (∀ x, Relation.TransGen (edgeIn registry) x x → x.mid ∉ ids plan) →
      planLoop registry fuel plan = .error .failedToCreateMigrationPlan := by
  intro fuel
  induction fuel with
  | zero =>
    intro plan _ _ _
    rfl
  | succ f ih =>
    intro plan hsub hnd hfree
    have hlen : plan.length ≠ registry.length := by
      have hm₀reg := cyclic_mem_registry hm₀
      have hm₀not := hfree m₀ hm₀
      have hlt : (ids plan).length < (ids registry).length := by
        refine length_lt_of_nodup_ssub hnd ?_ (mem_ids.mpr ⟨m₀, hm₀reg, rfl⟩) hm₀not
        intro i hi
        obtain ⟨x, hx, rfl⟩ := mem_ids.mp hi
        exact mem_ids.mpr ⟨x, hsub x hx, rfl⟩
      simp only [ids, List.length_map] at hlt
      omega
    rw [planLoop, if_neg hlen]
    by_cases hstall : (planPass registry plan).length = plan.length
    · rw [if_pos hstall]
    · rw [if_neg hstall]
      refine ih ?_ (nodupIds_planPass hnd) (planPass_cycle_free hndr hfree)
      intro x hx
      rcases mem_planPass_cases hx with h' | h'
      · exact hsub x h'
      · exact h'

/-! ### Replacement resolution, `rposition`, and the executor loops -/

theorem removeReplaced_cons (r : MigId) (rs : List MigId) (plan : List Migration) :
    removeReplaced (r :: rs) plan =
      removeReplaced rs (plan.filter (fun p => decide (p.mid ≠ r))) := rfl

theorem removeReplaced_sublist (replaces : List MigId) :
    ∀ (plan : List Migration), (removeReplaced replaces plan).Sublist plan := by
  induction replaces with
  | nil => exact fun plan => List.Sublist.refl plan
  | cons r rs ih =>
    intro plan
    rw [removeReplaced_cons]
    exact (ih _).trans (List.filter_sublist plan)

theorem mem_removeReplaced (replaces : List MigId) :
    ∀ {plan : List Migration} {x : Migration},
      x ∈ removeReplaced replaces plan ↔ x ∈ plan ∧ x.mid ∉ replaces := by
  induction replaces with
  | nil => simp [removeReplaced]
  | cons r rs ih =>
    intro plan x
    rw [removeReplaced_cons, ih, List.mem_filter]
    simp only [decide_eq_true_eq, List.mem_cons, not_or]
    tauto

theorem resolveReplaces_ok_sublist {applied : List Migration} :
    ∀ {l plan r : List Migration},
      resolveReplaces applied l plan = .ok r → r.Sublist plan := by
  intro l
  induction l with
  | nil =>
    intro plan r h
    rw [resolveReplaces] at h
    injection h with h'
    subst h'
    exact List.Sublist.refl _
  | cons m rest ih =>
    intro plan r h
    rw [resolveReplaces] at h
    by_cases h1 : m.replaces = []
    · rw [if_pos h1] at h
      exact ih h
    · rw [if_neg h1] at h
      by_cases h2 : ∃ rep ∈ m.replaces, rep ∈ ids applied
      · rw [if_pos h2] at h
        by_cases h3 : m.mid ∈ ids applied
        · rw [if_pos h3] at h
          exact absurd h (by simp)
        · rw [if_neg h3] at h
          exact (ih h).trans (List.filter_sublist plan)
      · rw [if_neg h2] at h
        exact (ih h).trans (removeReplaced_sublist m.replaces plan)

theorem resolveReplaces_skip {applied : List Migration} :
    ∀ {l : List Migration}, (∀ m ∈ l, m.replaces = []) →
      ∀ (plan : List Migration), resolveReplaces applied l plan = .ok plan := by
  intro l
  induction l with
  | nil => intro _ plan; rfl
  | cons m rest ih =>
    intro h plan
    rw [resolveReplaces, if_pos (h m (List.mem_cons_self m rest))]
    exact ih (fun x hx => h x (List.mem_cons_of_mem m hx)) plan

theorem resolveReplaces_append_skip {applied : List Migration} :
    ∀ {l₁ : List Migration} (l₂ : List Migration), (∀ m ∈ l₁, m.replaces = []) →
      ∀ (plan : List Migration),
        resolveReplaces applied (l₁ ++ l₂) plan = resolveReplaces applied l₂ plan := by
  intro l₁
  induction l₁ with
  | nil => intro l₂ _ plan; rfl
  | cons m rest ih =>
    intro l₂ h plan
    rw [List.cons_append, resolveReplaces, if_pos (h m (List.mem_cons_self m rest))]
    exact ih l₂ (fun x hx => h x (List.mem_cons_of_mem m hx)) plan

theorem rposition_eq_none {α : Type} (p : α → Bool) :
    ∀ (l : List α), rposition p l = none ↔ ∀ x ∈ l, p x = false := by
  intro l
  induction l with
  | nil => simp [rposition]
  | cons x xs ih =>
    constructor
    · intro h
      rw [rposition] at h
      cases hr : rposition p xs with
      | some i =>
        rw [hr] at h
        exact absurd h (by simp)
      | none =>
        rw [hr] at h
        by_cases hp : p x
        · rw [if_pos hp] at h
          exact absurd h (by simp)
        · intro y hy
          rcases List.mem_cons.mp hy with rfl | hy'
          · simpa using hp
          · exact (ih.mp hr) y hy'
    · intro h
      have hxs : rposition p xs = none :=
        ih.mpr (fun y hy => h y (List.mem_cons_of_mem x hy))
      rw [rposition, hxs]
      simp [h x (List.mem_cons_self x xs)]

theorem rposition_eq_some {α : Type} (p : α → Bool) :
    ∀ {l : List α} {i : Nat}, rposition p l = some i →
      ∃ h : i < l.length, p (l.get ⟨i, h⟩) = true ∧
        ∀ j (hj : j < l.length), i < j → p (l.get ⟨j, hj⟩) = false := by
  intro l
  induction l with
  | nil =>
    intro i h
    rw [rposition] at h
    exact absurd h (by simp)
  | cons x xs ih =>
    intro i h
    rw [rposition] at h
    cases hr : rposition p xs with
    | some k =>
      rw [hr] at h
      injection h with h'
      subst h'
      obtain ⟨hk, hpk, hrest⟩ := ih hr
      refine ⟨by simpa using Nat.succ_lt_succ hk, by simpa using hpk, ?_⟩
      intro j hj hij
      cases j with
      | zero => omega
      | succ j' =>
        have hj' : j' < xs.length := by simpa using hj
        have hfalse := hrest j' hj' (by omega)
        simpa using hfalse
    | none =>
      rw [hr] at h
      by_cases hp : p x
      · rw [if_pos hp] at h
        injection h with h'
        subst h'
        refine ⟨by simp, by simpa using hp, ?_⟩
        intro j hj hij
        cases j with
        | zero => omega
        | succ j' =>
          have hj' : j' < xs.length := by simpa using hj
          have hmem := xs.get_mem j' hj'
          have hfalse := (rposition_eq_none p xs).mp hr _ hmem
          simpa using hfalse
      · rw [if_neg hp] at h
        exact absurd h (by simp)

theorem rposition_eq_some_of {α : Type} (p : α → Bool) {l : List α} {i : Nat}
    (hi : i < l.length) (hp : p (l.get ⟨i, hi⟩) = true)
    (hrest : ∀ j (hj : j < l.length), i < j → p (l.get ⟨j, hj⟩) = false) :
    rposition p l = some i := by
  cases hr : rposition p l with
  | none =>
    have hfalse := (rposition_eq_none p l).mp hr _ (l.get_mem i hi)
    rw [hfalse] at hp
    exact absurd hp (by simp)
  | some k =>
    obtain ⟨hk, hpk, hkrest⟩ := rposition_eq_some p hr
    have hik : ¬ i < k := by
      intro h'
      rw [hrest k hk h'] at hpk
      exact absurd hpk (by simp)
    have hki : ¬ k < i := by
      intro h'
      rw [hkrest i hi h'] at hp
      exact absurd hp (by simp)
    have hkeq : k = i := by omega
    rw [hkeq]

theorem truncateTarget_none (nameOpt : Option String) (plan : List Migration) :
    truncateTarget none nameOpt plan = .ok plan := rfl

theorem truncateTarget_some_some (a n : String) (plan : List Migration) :
    truncateTarget (some a) (some n) plan =
      match rposition (fun m => decide (m.app = a ∧ m.name = n)) plan with
      | some pos => .ok (plan.take (pos + 1))
      | none =>
        if ∃ m ∈ plan, m.app = a then .error (.migrationNameNotExists a n)
        else .error (.appNameNotExists a) := rfl

theorem truncateTarget_some_none (a : String) (plan : List Migration) :
    truncateTarget (some a) none plan =
      match rposition (fun m => decide (m.app = a)) plan with
      | some pos => .ok (plan.take (pos + 1))
      | none => .error (.appNameNotExists a) := rfl

theorem gencore_eq_of_loop_error {registry applied : List Migration}
    {pt : PlanType} {aOpt nOpt : Option String} {e : Error}
    (h1 : planLoop registry (registry.length + 1) [] = .error e) :
    generateMigrationPlanCore registry applied ⟨pt, aOpt, nOpt⟩ = .error e := by
  unfold generateMigrationPlanCore
  rw [h1]

theorem gencore_eq_of_resolve_error {registry applied topo : List Migration}
    {pt : PlanType} {aOpt nOpt : Option String} {e : Error}
    (h1 : planLoop registry (registry.length + 1) [] = .ok topo)
    (h2 : resolveReplaces applied topo topo = .error e) :
    generateMigrationPlanCore registry applied ⟨pt, aOpt, nOpt⟩ = .error e := by
  unfold generateMigrationPlanCore
  rw [h1]
  show (match resolveReplaces applied topo topo with
    | .error e => (.error e : Except Error (List Migration))
    | .ok resolved => truncateTarget aOpt nOpt (modeFilter pt applied resolved)) = .error e
  rw [h2]

theorem gencore_eq_of_ok {registry applied topo resolved : List Migration}
    {pt : PlanType} {aOpt nOpt : Option String}
    (h1 : planLoop registry (registry.length + 1) [] = .ok topo)
    (h2 : resolveReplaces applied topo topo = .ok resolved) :
    generateMigrationPlanCore registry applied ⟨pt, aOpt, nOpt⟩ =
      truncateTarget aOpt nOpt (modeFilter pt applied resolved) := by
  unfold generateMigrationPlanCore
  rw [h1]
  show (match resolveReplaces applied topo topo with
    | .error e => (.error e : Except Error (List Migration))
    | .ok resolved => truncateTarget aOpt nOpt (modeFilter pt applied resolved)) =
    truncateTarget aOpt nOpt (modeFilter pt applied resolved)
  rw [h2]

theorem modeFilter_apply_nil (plan : List Migration) :
    modeFilter .apply [] plan = plan := by
  unfold modeFilter
  rw [List.filter_eq_self]
  intro a _
  simp [ids]

theorem runApplyLoop_failure (fails : MigId → Bool) :
    ∀ (pre : List Migration) (m : Migration) (post : List Migration) (st : DbState),
      (∀ x ∈ pre, fails x.mid = false) → fails m.mid = true →
      runApplyLoop fails (pre ++ m :: post) st =
        ⟨⟨st.locked, st.rows ++ pre.map migrationRow⟩, some (.migrationFailed m.mid)⟩ := by
  intro pre
  induction pre with
  | nil =>
    intro m post st _ hm
    rw [List.nil_append, runApplyLoop]
    simp [applyMigration, hm]
  | cons x xs ih =>
    intro m post st hpre hm
    rw [List.cons_append, runApplyLoop]
    have hx : fails x.mid = false := hpre x (List.mem_cons_self x xs)
    simp only [applyMigration, hx, Bool.false_eq_true, if_false]
    rw [ih m post _ (fun y hy => hpre y (List.mem_cons_of_mem x hy)) hm]
    simp [List.append_assoc]

theorem runRevertLoop_failure (fails : MigId → Bool) :
    ∀ (pre : List Migration) (m : Migration) (post : List Migration) (st : DbState),
      (∀ x ∈ pre, fails x.mid = false) → fails m.mid = true →
      runRevertLoop fails (pre ++ m :: post) st =
        ⟨⟨st.locked, pre.foldl (fun rs x => deleteRow x rs) st.rows⟩,
          some (.migrationFailed m.mid)⟩ := by
  intro pre
  induction pre with
  | nil =>
    intro m post st _ hm
    rw [List.nil_append, runRevertLoop]
    simp [revertMigration, hm]
  | cons x xs ih =>
    intro m post st hpre hm
    rw [List.cons_append, runRevertLoop]
    have hx : fails x.mid = false := hpre x (List.mem_cons_self x xs)
    simp only [revertMigration, hx, Bool.false_eq_true, if_false]
    rw [ih m post _ (fun y hy => hpre y (List.mem_cons_of_mem x hy)) hm]
    rfl

/-! ### Concrete instances used by witnesses and counterexamples -/

/-- A standalone migration with no dependencies. -/
def exA : Migration := ⟨"app1", "a", [], [], []⟩

/-- A plain migration that `exM` replaces. -/
def exR : Migration := ⟨"main", "r", [], [], []⟩

/-- A migration replacing `exR`. -/
def exM : Migration := ⟨"main", "m", [], [], [⟨"main", "r"⟩]⟩

/-- First migration of a linear chain. -/
def exS1 : Migration := ⟨"main", "M1", [], [], []⟩

/-- Second migration of a linear chain (parent `exS1`). -/
def exS2 : Migration := ⟨"main", "M2", [⟨"main", "M1"⟩], [], []⟩

/-- Third migration of a linear chain (parent `exS2`). -/
def exS3 : Migration := ⟨"main", "M3", [⟨"main", "M2"⟩], [], []⟩

/-- Cycle example: plain migration `exP`. -/
def exP : Migration := ⟨"app1", "p", [], [], []⟩

/-- Cycle example: `exQ` lists `exP` both as parent and in `run_before`. -/
def exQ : Migration := ⟨"app1", "q", [⟨"app1", "p"⟩], [⟨"app1", "p"⟩], []⟩

/-- Executor example: second migration of the chain rooted at `exS1`. -/
def exE2 : Migration := ⟨"main", "M2e", [⟨"main", "M1"⟩], [], []⟩

/-- Failure oracle making exactly `exE2` fail. -/
def exFails2 : MigId → Bool := fun i => decide (i = ⟨"main", "M2e"⟩)

/-- A registry whose migrations declare no parents and no `run_before`
targets has no precedence edge, hence is acyclic. -/
theorem acyclic_of_no_edges {registry : List Migration}
    (h : ∀ m ∈ registry, m.parents = [] ∧ m.runBefore = []) : Acyclic registry := by
  have hnoedge : ∀ a b, ¬ edgeIn registry a b := by
    rintro a b ⟨ha, hb, hp | hr⟩
    · rw [(h b hb).1] at hp
      exact List.not_mem_nil _ hp
    · rw [(h a ha).2] at hr
      exact List.not_mem_nil _ hr
  intro m hm
  cases hm with
  | single h' => exact hnoedge _ _ h'
  | tail _ h' => exact hnoedge _ _ h'

/-! ### Claim theorems -/

/-- C10: for an empty registry and a plan request with no target app,
`generate_migration_plan` returns an empty plan successfully in every
mode; the emission loop body never runs, so `FailedToCreateMigrationPlan`
is never raised for an empty registry. -/
theorem c10_empty_registry (rows : List AppliedMigrationSqlRow) (pt : PlanType) :
    generateMigrationPlan [] rows ⟨pt, none, none⟩ = .ok [] := by
  cases pt <;> rfl

/-- C8: for a fixed registry input order (the embedding's registry list)
and a fixed applied set, any two invocations of `generate_migration_plan`
with the same plan request produce the same plan in the same order; the
planner is a pure function of the registry order, the applied set and
the request. -/
theorem c8_deterministic (registry applied : List Migration) (p : Plan)
    (out₁ out₂ : Except Error (List Migration))
    (h₁ : generateMigrationPlanCore registry applied p = out₁)
    (h₂ : generateMigrationPlanCore registry applied p = out₂) : out₁ = out₂ := by
  rw [← h₁, ← h₂]

/-- Witness for C8 at a concrete registry, applied set and request. -/
theorem c8_deterministic_witness :
    (Except.ok [exA] : Except Error (List Migration)) = .ok [exA] :=
  c8_deterministic [exA] [] ⟨.all, none, none⟩ _ _ rfl rfl

/-- C9: `list_applied_migrations` returns only registry migrations, and a
tracking-table row matching no registered migration is silently ignored:
prepending such a row to the fetched rows changes no plan (and makes no
plan fail) in any mode. -/
theorem c9_unknown_rows_ignored (registry : List Migration)
    (rows : List AppliedMigrationSqlRow) (row : AppliedMigrationSqlRow)
    (hrow : ∀ m ∈ registry, ¬(row.app = m.app ∧ row.name = m.name)) :
    (∀ m ∈ listAppliedMigrations registry rows, m ∈ registry) ∧
      ∀ p : Plan, generateMigrationPlan registry (row :: rows) p =
        generateMigrationPlan registry rows p := by
  constructor
  · intro m hm
    exact (List.mem_filter.mp hm).1
  · intro p
    have happ : listAppliedMigrations registry (row :: rows) =
        listAppliedMigrations registry rows := by
      unfold listAppliedMigrations
      apply List.filter_congr
      intro m hm
      rw [decide_eq_decide]
      constructor
      · rintro ⟨r, hr, hmatch⟩
        rcases List.mem_cons.mp hr with rfl | hr'
        · exact absurd hmatch (hrow m hm)
        · exact ⟨r, hr', hmatch⟩
      · rintro ⟨r, hr, hmatch⟩
        exact ⟨r, List.mem_cons_of_mem row hr, hmatch⟩
    unfold generateMigrationPlan
    rw [happ]

/-- Witness for C9: an unknown row over a one-migration registry changes
nothing. -/
theorem c9_unknown_rows_ignored_witness :
    generateMigrationPlan [exA] [⟨7, "zz", "q"⟩] ⟨.all, none, none⟩ =
      generateMigrationPlan [exA] [] ⟨.all, none, none⟩ :=
  (c9_unknown_rows_ignored [exA] [] ⟨7, "zz", "q"⟩ (by decide)).2 ⟨.all, none, none⟩

/-- C6 counterexample: with every registered migration applied,
Apply-mode planning can fail (here with `BothMigrationTypeApplied`,
because the replacer `exM` and its replaced `exR` are both applied)
instead of returning the empty plan the claim promises. -/
theorem c6_counterexample :
    (∀ m ∈ [exR, exM], m.mid ∈ ids [exR, exM]) ∧
    generateMigrationPlanCore [exR, exM] [exR, exM] ⟨.apply, none, none⟩ =
      .error .bothMigrationTypeApplied := by
  exact ⟨by decide, by rfl⟩

/-- C6 (amended): with no applied migrations, the Apply-mode result
equals the List/All-mode result; and when every registered migration is
applied, any successfully returned Apply-mode plan is empty (Apply-mode
planning may instead fail, e.g. on a replacer/replaced conflict). -/
theorem c6_amended (registry applied : List Migration)
    (hfull : ∀ m ∈ registry, m.mid ∈ ids applied) :
    (generateMigrationPlanCore registry [] ⟨.apply, none, none⟩ =
      generateMigrationPlanCore registry [] ⟨.all, none, none⟩) ∧
    ∀ p, generateMigrationPlanCore registry applied ⟨.apply, none, none⟩ = .ok p →
      p = [] := by
  constructor
  · cases hloop : planLoop registry (registry.length + 1) [] with
    | error e =>
      rw [gencore_eq_of_loop_error hloop, gencore_eq_of_loop_error hloop]
    | ok topo =>
      cases hres : resolveReplaces [] topo topo with
      | error e =>
        rw [gencore_eq_of_resolve_error hloop hres,
          gencore_eq_of_resolve_error hloop hres]
      | ok resolved =>
        rw [gencore_eq_of_ok hloop hres, gencore_eq_of_ok hloop hres,
          truncateTarget_none, truncateTarget_none, modeFilter_apply_nil]
        rfl
  · intro p hp
    cases hloop : planLoop registry (registry.length + 1) [] with
    | error e =>
      rw [gencore_eq_of_loop_error hloop] at hp
      exact absurd hp (by simp)
    | ok topo =>
      cases hres : resolveReplaces applied topo topo with
      | error e =>
        rw [gencore_eq_of_resolve_error hloop hres] at hp
        exact absurd hp (by simp)
      | ok resolved =>
        rw [gencore_eq_of_ok hloop hres, truncateTarget_none] at hp
        have hsub : ∀ x ∈ topo, x ∈ registry :=
          (planLoop_ok_props hloop (fun x hx => absurd hx (List.not_mem_nil x))
            (by simp [NodupIds, ids]) (ordered_nil registry)).1
        have hfil : modeFilter .apply applied resolved = [] := by
          unfold modeFilter
          rw [List.filter_eq_nil_iff]
          intro a ha
          have hareg : a ∈ registry :=
            hsub a ((resolveReplaces_ok_sublist hres).subset ha)
          simp only [decide_eq_true_eq]
          intro hcon
          exact hcon (hfull a hareg)
        rw [hfil] at hp
        injection hp with h'
        exact h'.symm

/-- Witness for C6 at a one-migration registry, fully applied. -/
theorem c6_amended_witness :
    generateMigrationPlanCore [exA] [] ⟨.apply, none, none⟩ =
      generateMigrationPlanCore [exA] [] ⟨.all, none, none⟩ ∧
    ([] : List Migration) = [] :=
  ⟨(c6_amended [exA] [exA] (by decide)).1,
    (c6_amended [exA] [exA] (by decide)).2 [] (by rfl)⟩

/-- C7 counterexample: a targeted Apply-mode request whose target is
already applied does not return an empty plan: the mode filter removes
the applied target first, so target truncation fails with
`AppNameNotExists` (the registry's only migration is applied). -/
theorem c7_counterexample :
    exS1.mid ∈ ids [exS1] ∧
    generateMigrationPlanCore [exS1] [exS1] ⟨.apply, some "main", some "M1"⟩ =
      .error (.appNameNotExists "main") ∧
    ∀ p : List Migration,
      generateMigrationPlanCore [exS1] [exS1] ⟨.apply, some "main", some "M1"⟩ ≠
        .ok p := by
  refine ⟨by decide, by rfl, ?_⟩
  intro p hp
  rw [show generateMigrationPlanCore [exS1] [exS1] ⟨.apply, some "main", some "M1"⟩ =
      .error (.appNameNotExists "main") from rfl] at hp
  exact absurd hp (by simp)

/-- C7 (amended): in Apply mode with a target app and migration name,
when the target `(app, name)` is in the applied set (and the earlier
phases succeed), `generate_migration_plan` fails with
`MigrationNameNotExists` or `AppNameNotExists` rather than returning an
empty plan: the applied target is filtered out before truncation. -/
theorem c7_amended (registry applied topo resolved : List Migration) (a n : String)
    (h1 : planLoop registry (registry.length + 1) [] = .ok topo)
    (h2 : resolveReplaces applied topo topo = .ok resolved)
    (happlied : (⟨a, n⟩ : MigId) ∈ ids applied) :
    generateMigrationPlanCore registry applied ⟨.apply, some a, some n⟩ =
        .error (.migrationNameNotExists a n) ∨
      generateMigrationPlanCore registry applied ⟨.apply, some a, some n⟩ =
        .error (.appNameNotExists a) := by
  have hgen : generateMigrationPlanCore registry applied ⟨.apply, some a, some n⟩ =
      truncateTarget (some a) (some n) (modeFilter .apply applied resolved) :=
    gencore_eq_of_ok h1 h2
  have hnomatch : ∀ x ∈ modeFilter .apply applied resolved,
      (fun m => decide (m.app = a ∧ m.name = n)) x = false := by
    intro x hx
    unfold modeFilter at hx
    have hx' := List.mem_filter.mp hx
    simp only [decide_eq_true_eq] at hx'
    simp only [decide_eq_false_iff_not]
    rintro ⟨ha, hn⟩
    exact hx'.2 (by
      have hxid : x.mid = (⟨a, n⟩ : MigId) := by
        unfold Migration.mid
        rw [ha, hn]
      rw [hxid]
      exact happlied)
  have hnone := (rposition_eq_none
    (fun m => decide (m.app = a ∧ m.name = n))
    (modeFilter .apply applied resolved)).mpr hnomatch
  rw [hgen, truncateTarget_some_some, hnone]
  by_cases hany : ∃ x ∈ modeFilter .apply applied resolved, x.app = a
  · rw [if_pos hany]
    exact Or.inl rfl
  · rw [if_neg hany]
    exact Or.inr rfl

/-- Witness for C7 at the one-migration registry with the target
applied. -/
theorem c7_amended_witness :
    generateMigrationPlanCore [exS1] [exS1] ⟨.apply, some "main", some "M1"⟩ =
        .error (.migrationNameNotExists "main" "M1") ∨
      generateMigrationPlanCore [exS1] [exS1] ⟨.apply, some "main", some "M1"⟩ =
        .error (.appNameNotExists "main") :=
  c7_amended [exS1] [exS1] [exS1] [exS1] "main" "M1" rfl rfl (by decide)

/-- C3: on a registry with a parent/run_before precedence cycle (and
distinct identities), `generate_migration_plan` fails with
`FailedToCreateMigrationPlan` for every applied set and request, and an
`apply_all` / `revert_all` call leaves the tracking table untouched (no
database writes). -/
theorem c3_cycle_fails (registry applied : List Migration) (p : Plan)
    (hnd : NodupIds registry)
    (hcyc : ∃ m, Relation.TransGen (edgeIn registry) m m) :
    generateMigrationPlanCore registry applied p = .error .failedToCreateMigrationPlan ∧
    ∀ (fails : MigId → Bool) (st : DbState),
      (applyAll fails registry st).state.rows = st.rows ∧
      (revertAll fails registry st).state.rows = st.rows := by
  obtain ⟨m₀, hm₀⟩ := hcyc
  have herr : ∀ (ap : List Migration) (q : Plan),
      generateMigrationPlanCore registry ap q = .error .failedToCreateMigrationPlan := by
    intro ap q
    unfold generateMigrationPlanCore
    rw [planLoop_error_of_cycle hnd hm₀ (fun x hx => absurd hx (List.not_mem_nil x))
      (by simp [NodupIds, ids]) (by simp [ids])]
  refine ⟨herr applied p, ?_⟩
  intro fails st
  constructor
  · unfold applyAll generateMigrationPlan
    rw [herr _ _]
  · unfold revertAll generateMigrationPlan
    rw [herr _ _]

/-- Witness for C3 at the two-migration cycle `exP`/`exQ`. -/
theorem c3_cycle_fails_witness :
    generateMigrationPlanCore [exP, exQ] [] ⟨.all, none, none⟩ =
        .error .failedToCreateMigrationPlan ∧
      (applyAll (fun _ => false) [exP, exQ] ⟨false, []⟩).state.rows = [] := by
  have hedge₁ : edgeIn [exP, exQ] exP exQ := ⟨by decide, by decide, Or.inl (by decide)⟩
  have hedge₂ : edgeIn [exP, exQ] exQ exP := ⟨by decide, by decide, Or.inr (by decide)⟩
  have hcyc : ∃ m, Relation.TransGen (edgeIn [exP, exQ]) m m :=
    ⟨exP, Relation.TransGen.head hedge₁ (Relation.TransGen.single hedge₂)⟩
  have h := c3_cycle_fails [exP, exQ] [] ⟨.all, none, none⟩ (by decide) hcyc
  exact ⟨h.1, (h.2 (fun _ => false) ⟨false, []⟩).1⟩

/-- C4 counterexample: when a migration fails inside `apply_all`, the
already-committed migration stays recorded and the failing one is not,
but the advisory lock is NOT released before the error is surfaced: the
final state still holds the lock, refuting the lock-release part of the
claim. -/
theorem c4_counterexample :
    applyAll exFails2 [exS1, exE2] ⟨false, []⟩ =
      ⟨⟨true, [⟨0, "main", "M1"⟩]⟩, some (.migrationFailed ⟨"main", "M2e"⟩)⟩ ∧
    (applyAll exFails2 [exS1, exE2] ⟨false, []⟩).state.locked = true := by
  exact ⟨by rfl, by rfl⟩

/-- C4 (amended): when a single-migration step fails inside `apply_all`
or `revert_all`, the call stops at that migration, the tracking rows of
the migrations before it remain committed, the failing migration is not
recorded, and the error is surfaced with the advisory lock still held
(the `?` operator returns before `unlock` runs). -/
theorem c4_amended (fails : MigId → Bool) (registry : List Migration) (st : DbState)
    (pre post : List Migration) (m : Migration)
    (hpre : ∀ x ∈ pre, fails x.mid = false) (hm : fails m.mid = true) :
    (generateMigrationPlan registry st.rows ⟨.apply, none, none⟩ = .ok (pre ++ m :: post) →
      applyAll fails registry st =
        ⟨⟨true, st.rows ++ pre.map migrationRow⟩, some (.migrationFailed m.mid)⟩) ∧
    (generateMigrationPlan registry st.rows ⟨.revert, none, none⟩ = .ok (pre ++ m :: post) →
      revertAll fails registry st =
        ⟨⟨true, pre.foldl (fun rs x => deleteRow x rs) st.rows⟩,
          some (.migrationFailed m.mid)⟩) := by
  constructor
  · intro hplan
    unfold applyAll
    rw [hplan]
    show (match runApplyLoop fails (pre ++ m :: post) ⟨true, st.rows⟩ with
      | ⟨st', none⟩ => (⟨⟨false, st'.rows⟩, none⟩ : ExecResult)
      | ⟨st', some e⟩ => ⟨st', some e⟩) =
      ⟨⟨true, st.rows ++ pre.map migrationRow⟩, some (.migrationFailed m.mid)⟩
    rw [runApplyLoop_failure fails pre m post ⟨true, st.rows⟩ hpre hm]
  · intro hplan
    unfold revertAll
    rw [hplan]
    show (match runRevertLoop fails (pre ++ m :: post) ⟨true, st.rows⟩ with
      | ⟨st', none⟩ => (⟨⟨false, st'.rows⟩, none⟩ : ExecResult)
      | ⟨st', some e⟩ => ⟨st', some e⟩) =
      ⟨⟨true, pre.foldl (fun rs x => deleteRow x rs) st.rows⟩,
        some (.migrationFailed m.mid)⟩
    rw [runRevertLoop_failure fails pre m post ⟨true, st.rows⟩ hpre hm]

/-- Witness for C4 at the concrete failing chain. -/
theorem c4_amended_witness :
    applyAll exFails2 [exS1, exE2] ⟨false, []⟩ =
      ⟨⟨true, [] ++ [exS1].map migrationRow⟩,
        some (.migrationFailed exE2.mid)⟩ :=
  (c4_amended exFails2 [exS1, exE2] ⟨false, []⟩ [exS1] [] exE2
    (by decide) (by decide)).1 rfl

/-- C1 counterexample: an acyclic registry (no parents, no run_before)
in which `exM` replaces `exR`.  Replacement resolution runs in every
mode, so the List/All plan is `[exM]` and omits the registered migration
`exR`, refuting "contains every registered migration exactly once". -/
theorem c1_counterexample :
    Acyclic [exR, exM] ∧ NodupIds [exR, exM] ∧ ParentsClosed [exR, exM] ∧
    generateMigrationPlanCore [exR, exM] [] ⟨.all, none, none⟩ = .ok [exM] ∧
    exR ∈ [exR, exM] ∧ exR ∉ [exM] := by
  refine ⟨acyclic_of_no_edges (by decide), by decide, by decide, by rfl,
    by decide, by decide⟩

/-- C1 (amended): for a registry with distinct identities, parents
closed under registration, an acyclic parents/run_before precedence
graph, and in which no migration declares replacements, the List/All
plan (for any applied set) exists and contains every registered
migration exactly once (it is a permutation of the registry), and every
entry is preceded by all of its parents and by every registered
migration listing it in `run_before` (`Ordered`). -/
theorem c1_amended (registry applied : List Migration)
    (hnd : NodupIds registry) (hpar : ParentsClosed registry) (hacyc : Acyclic registry)
    (hnorep : ∀ m ∈ registry, m.replaces = []) :
    ∃ plan, generateMigrationPlanCore registry applied ⟨.all, none, none⟩ = .ok plan ∧
      List.Perm plan registry ∧ Ordered registry plan := by
  obtain ⟨out, hout, hperm, hord⟩ := planLoop_complete hnd hpar hacyc
  refine ⟨out, ?_, hperm, hord⟩
  have hres : resolveReplaces applied out out = .ok out :=
    resolveReplaces_skip (fun m hm => hnorep m (hperm.subset hm)) out
  rw [gencore_eq_of_ok hout hres, truncateTarget_none]
  rfl

/-- Position rank certifying acyclicity of the example chain
`exS1 → exS2 → exS3`. -/
def rankS (m : Migration) : Nat :=
  if m.name = "M1" then 0 else if m.name = "M2" then 1 else 2

/-- Witness for C1 at the three-migration linear chain. -/
theorem c1_amended_witness :
    ∃ plan, generateMigrationPlanCore [exS1, exS2, exS3] [] ⟨.all, none, none⟩ =
        .ok plan ∧
      List.Perm plan [exS1, exS2, exS3] ∧ Ordered [exS1, exS2, exS3] plan := by
  refine c1_amended [exS1, exS2, exS3] [] (by decide) (by decide) ?_ (by decide)
  -- acyclicity of the chain: rank the migrations by position
  intro m hm
  have hrank : ∀ a b, edgeIn [exS1, exS2, exS3] a b → rankS a < rankS b := by
    rintro a b ⟨ha, hb, hp | hr⟩
    · fin_cases ha <;> fin_cases hb <;> revert hp <;> decide
    · fin_cases ha <;> fin_cases hb <;> revert hr <;> decide
  have hchain : ∀ x y, Relation.TransGen (edgeIn [exS1, exS2, exS3]) x y →
      rankS x < rankS y := by
    intro x y hxy
    induction hxy with
    | single h => exact hrank _ _ h
    | tail _ h ih => exact Nat.lt_trans ih (hrank _ _ h)
  exact absurd (hchain m m hm) (Nat.lt_irrefl _)

/-- The target-matching condition of the claim: the entry's app matches,
and its name matches when a name was given. -/
def targetMatch (app : String) (nameOpt : Option String) (m : Migration) : Bool :=
  match nameOpt with
  | some n => decide (m.app = app ∧ m.name = n)
  | none => decide (m.app = app)

/-- C5: after mode filtering, a plan request naming an app (and
optionally a migration name) truncates the plan at the rightmost
matching entry, keeping entries up to and including it; if no entry
matches, it fails with `MigrationNameNotExists` when a name was given
and some plan entry has the requested app, and with `AppNameNotExists`
otherwise. -/
theorem c5_target_truncation (registry applied topo resolved : List Migration)
    (pt : PlanType) (a : String) (nOpt : Option String)
    (h1 : planLoop registry (registry.length + 1) [] = .ok topo)
    (h2 : resolveReplaces applied topo topo = .ok resolved) :
    (∀ i (hi : i < (modeFilter pt applied resolved).length),
      targetMatch a nOpt ((modeFilter pt applied resolved).get ⟨i, hi⟩) = true →
      (∀ j (hj : j < (modeFilter pt applied resolved).length), i < j →
        targetMatch a nOpt ((modeFilter pt applied resolved).get ⟨j, hj⟩) = false) →
      generateMigrationPlanCore registry applied ⟨pt, some a, nOpt⟩ =
        .ok ((modeFilter pt applied resolved).take (i + 1))) ∧
    ((∀ x ∈ modeFilter pt applied resolved, targetMatch a nOpt x = false) →
      generateMigrationPlanCore registry applied ⟨pt, some a, nOpt⟩ =
        (match nOpt with
         | some n =>
           if ∃ x ∈ modeFilter pt applied resolved, x.app = a then
             .error (.migrationNameNotExists a n)
           else .error (.appNameNotExists a)
         | none => .error (.appNameNotExists a))) := by
  constructor
  · intro i hi hp hrest
    cases nOpt with
    | some n =>
      simp only [targetMatch] at hp hrest
      rw [gencore_eq_of_ok h1 h2, truncateTarget_some_some,
        rposition_eq_some_of (fun m => decide (m.app = a ∧ m.name = n)) hi hp hrest]
    | none =>
      simp only [targetMatch] at hp hrest
      rw [gencore_eq_of_ok h1 h2, truncateTarget_some_none,
        rposition_eq_some_of (fun m => decide (m.app = a)) hi hp hrest]
  · intro hall
    cases nOpt with
    | some n =>
      simp only [targetMatch] at hall
      have hnone := (rposition_eq_none (fun m => decide (m.app = a ∧ m.name = n))
        (modeFilter pt applied resolved)).mpr hall
      rw [gencore_eq_of_ok h1 h2, truncateTarget_some_some, hnone]
    | none =>
      simp only [targetMatch] at hall
      have hnone := (rposition_eq_none (fun m => decide (m.app = a))
        (modeFilter pt applied resolved)).mpr hall
      rw [gencore_eq_of_ok h1 h2, truncateTarget_some_none, hnone]

/-- Witness for C5: targeted Apply on the linear chain stops after the
target `M2` (scenario 6 of the specification). -/
theorem c5_target_truncation_witness :
    generateMigrationPlanCore [exS1, exS2, exS3] [] ⟨.apply, some "main", some "M2"⟩ =
      .ok [exS1, exS2] :=
  (c5_target_truncation [exS1, exS2, exS3] [] [exS1, exS2, exS3] [exS1, exS2, exS3]
    .apply "main" (some "M2") rfl rfl).1 1 (by decide) (by decide) (by decide)

/-- C2 counterexample: `exM` replaces `exR`; the applied set is `[exM]`,
so none of the replaced migrations is applied, yet the Apply plan is
empty and does not contain `exM` (the Apply filter removed the applied
replacer), refuting the first case of the claim as stated. -/
theorem c2_counterexample :
    exM ∈ [exR, exM] ∧ exM.replaces ≠ [] ∧
    (∀ r ∈ exM.replaces, r ∉ ids [exM]) ∧
    generateMigrationPlanCore [exR, exM] [exM] ⟨.apply, none, none⟩ = .ok [] ∧
    exM.mid ∉ ids ([] : List Migration) := by
  exact ⟨by decide, by decide, by decide, by rfl, by decide⟩

/-- C2 (amended): for a well-formed registry (distinct identities,
parents closed, acyclic) in which `M` is the only migration with a
non-empty `replaces` list, `M` does not replace itself, and the replaced
identities are registered: if no replaced migration is applied and `M`
itself is not applied, the Apply plan contains `M` and none of the
replaced migrations; if some replaced migration is applied and `M` is
not, the Apply plan omits `M` and contains exactly the unapplied
replaced migrations; if both `M` and some replaced migration are
applied, planning fails with `BothMigrationTypeApplied`. -/
theorem c2_amended (registry applied : List Migration) (M : Migration)
    (hnd : NodupIds registry) (hpar : ParentsClosed registry) (hacyc : Acyclic registry)
    (hM : M ∈ registry) (hMrep : M.replaces ≠ [])
    (honly : ∀ m' ∈ registry, m'.mid ≠ M.mid → m'.replaces = [])
    (hself : M.mid ∉ M.replaces)
    (hrepin : ∀ r ∈ M.replaces, r ∈ ids registry) :
    ((∀ r ∈ M.replaces, r ∉ ids applied) → M.mid ∉ ids applied →
      ∃ p, generateMigrationPlanCore registry applied ⟨.apply, none, none⟩ = .ok p ∧
        M.mid ∈ ids p ∧ ∀ r ∈ M.replaces, r ∉ ids p) ∧
    ((∃ r ∈ M.replaces, r ∈ ids applied) → M.mid ∉ ids applied →
      ∃ p, generateMigrationPlanCore registry applied ⟨.apply, none, none⟩ = .ok p ∧
        M.mid ∉ ids p ∧ ∀ r ∈ M.replaces, (r ∈ ids p ↔ r ∉ ids applied)) ∧
    ((∃ r ∈ M.replaces, r ∈ ids applied) → M.mid ∈ ids applied →
      generateMigrationPlanCore registry applied ⟨.apply, none, none⟩ =
        .error .bothMigrationTypeApplied) := by
  obtain ⟨topo, htopo, hperm, _⟩ := planLoop_complete hnd hpar hacyc
  have hndtopo : NodupIds topo := (hperm.map Migration.mid).nodup_iff.mpr hnd
  have hMtopo : M ∈ topo := hperm.mem_iff.mpr hM
  obtain ⟨t1, t2, ht⟩ := List.append_of_mem hMtopo
  subst ht
  have hsubtopo : ∀ x ∈ t1 ++ M :: t2, x ∈ registry := fun x hx => hperm.subset hx
  have hstruct : (t1 ++ M :: t2).Nodup := List.Nodup.of_map _ hndtopo
  have hMnot : M ∉ t1 ∧ M ∉ t2 := by
    rw [List.nodup_middle] at hstruct
    have hM' := (List.nodup_cons.mp hstruct).1
    exact ⟨fun h => hM' (List.mem_append_left _ h),
      fun h => hM' (List.mem_append_right _ h)⟩
  have hempty₁ : ∀ x ∈ t1, x.replaces = [] := by
    intro x hx
    refine honly x (hsubtopo x (List.mem_append_left _ hx)) ?_
    intro hmid
    have hxM : x = M :=
      eq_of_mem_of_mid_eq hnd (hsubtopo x (List.mem_append_left _ hx)) hM hmid
    exact hMnot.1 (hxM ▸ hx)
  have hempty₂ : ∀ x ∈ t2, x.replaces = [] := by
    intro x hx
    refine honly x (hsubtopo x (List.mem_append_right _ (List.mem_cons_of_mem M hx))) ?_
    intro hmid
    have hxM : x = M := eq_of_mem_of_mid_eq hnd
      (hsubtopo x (List.mem_append_right _ (List.mem_cons_of_mem M hx))) hM hmid
    exact hMnot.2 (hxM ▸ hx)
  have hMmemT : M ∈ t1 ++ M :: t2 :=
    List.mem_append_right _ (List.mem_cons_self M t2)
  refine ⟨?_, ?_, ?_⟩
  · -- (a) no replaced migration applied, M not applied
    intro hnone hMapp
    have hnoex : ¬ ∃ r ∈ M.replaces, r ∈ ids applied := by
      rintro ⟨r, hr, hrapp⟩
      exact hnone r hr hrapp
    have hres : resolveReplaces applied (t1 ++ M :: t2) (t1 ++ M :: t2) =
        .ok (removeReplaced M.replaces (t1 ++ M :: t2)) := by
      rw [resolveReplaces_append_skip (M :: t2) hempty₁, resolveReplaces,
        if_neg hMrep, if_neg hnoex]
      exact resolveReplaces_skip hempty₂ _
    refine ⟨(removeReplaced M.replaces (t1 ++ M :: t2)).filter
      (fun m => decide (m.mid ∉ ids applied)), ?_, ?_, ?_⟩
    · rw [gencore_eq_of_ok htopo hres, truncateTarget_none]
      rfl
    · refine mem_ids.mpr ⟨M, List.mem_filter.mpr ⟨?_, ?_⟩, rfl⟩
      · exact (mem_removeReplaced M.replaces).mpr ⟨hMmemT, hself⟩
      · simpa using hMapp
    · intro r hr hmem
      obtain ⟨x, hx, hxid⟩ := mem_ids.mp hmem
      have hx' := (mem_removeReplaced M.replaces).mp (List.mem_filter.mp hx).1
      exact hx'.2 (hxid ▸ hr)
  · -- (b) some replaced migration applied, M not applied
    intro hex hMapp
    have hres : resolveReplaces applied (t1 ++ M :: t2) (t1 ++ M :: t2) =
        .ok ((t1 ++ M :: t2).filter (fun p => decide (p.mid ≠ M.mid))) := by
      rw [resolveReplaces_append_skip (M :: t2) hempty₁, resolveReplaces,
        if_neg hMrep, if_pos hex, if_neg hMapp]
      exact resolveReplaces_skip hempty₂ _
    refine ⟨((t1 ++ M :: t2).filter (fun p => decide (p.mid ≠ M.mid))).filter
      (fun m => decide (m.mid ∉ ids applied)), ?_, ?_, ?_⟩
    · rw [gencore_eq_of_ok htopo hres, truncateTarget_none]
      rfl
    · intro hmem
      obtain ⟨x, hx, hxid⟩ := mem_ids.mp hmem
      have hx₁ := List.mem_filter.mp (List.mem_filter.mp hx).1
      have hxne : x.mid ≠ M.mid := by
        have := hx₁.2
        simpa using this
      exact hxne hxid
    · intro r hr
      constructor
      · intro hmem
        obtain ⟨x, hx, hxid⟩ := mem_ids.mp hmem
        have hx₂ := (List.mem_filter.mp hx).2
        simp only [decide_eq_true_eq] at hx₂
        exact hxid ▸ hx₂
      · intro hrnotapp
        obtain ⟨xr, hxreg, hxrid⟩ := mem_ids.mp (hrepin r hr)
        have hxrT : xr ∈ t1 ++ M :: t2 := hperm.mem_iff.mpr hxreg
        have hrne : r ≠ M.mid := fun h => hself (h ▸ hr)
        refine mem_ids.mpr ⟨xr, List.mem_filter.mpr
          ⟨List.mem_filter.mpr ⟨hxrT, ?_⟩, ?_⟩, hxrid⟩
        · simp only [decide_eq_true_eq]
          rw [hxrid]
          exact hrne
        · simp only [decide_eq_true_eq]
          rw [hxrid]
          exact hrnotapp
  · -- (c) both M and some replaced migration applied
    intro hex hMapp
    have hres : resolveReplaces applied (t1 ++ M :: t2) (t1 ++ M :: t2) =
        .error .bothMigrationTypeApplied := by
      rw [resolveReplaces_append_skip (M :: t2) hempty₁, resolveReplaces,
        if_neg hMrep, if_pos hex, if_pos hMapp]
    exact gencore_eq_of_resolve_error htopo hres

/-- Witness for C2 at the replacer pair `exM`/`exR` on a fresh database
(scenario 5 of the specification: the Apply plan is `[exM]`). -/
theorem c2_amended_witness :
    ∃ p, generateMigrationPlanCore [exR, exM] [] ⟨.apply, none, none⟩ = .ok p ∧
      exM.mid ∈ ids p ∧ ∀ r ∈ exM.replaces, r ∉ ids p :=
  (c2_amended [exR, exM] [] exM (by decide) (by decide)
    (acyclic_of_no_edges (by decide)) (by decide) (by decide) (by decide)
    (by decide) (by decide)).1 (by decide) (by decide)

end SqlxMigrator
